import Mathlib

/-!
Verification of the smart-doc retrieval engine (src/model.py) against its
natural-language specification.

The Python source is shallowly embedded: strings become `List Char`
(wrapped in `String` at the interface), Python ints become `ℤ`/`ℕ`, and
real-valued scores become `ℚ` (the score-range and threshold properties at
issue do not hinge on floating-point rounding).  The one place where the
*value* of a float computation is load-bearing, `int(chunk_size * 0.7)` in
`chunk_text`, is embedded bit-exactly via IEEE-754 binary64 round-to-
nearest-even arithmetic on exact integers.  Fallible code returns
`Except`/`Option`; the unbounded `while` loop of `chunk_text` is given
explicit fuel, `none` marking a run that does not terminate normally.
-/

set_option maxRecDepth 4000

namespace SmartDoc

/-! ### Python string primitives -/

/-- The ASCII whitespace class of Python's `str.strip` / `re` `\s`
(space, tab, newline, carriage return, vertical tab, form feed).
The claims under verification never involve non-ASCII whitespace, so the
Unicode extension of the class is not modelled. -/
def isPySpace (c : Char) : Bool :=
  c = ' ' ∨ c = '\t' ∨ c = '\n' ∨ c = '\r' ∨ c = '\x0b' ∨ c = '\x0c'

/-- Python `str.strip()` on a character list: drop leading and trailing
whitespace. -/
def pyStrip (l : List Char) : List Char :=
  ((l.dropWhile isPySpace).reverse.dropWhile isPySpace).reverse

/-- Python `str.strip()` on strings. -/
def py_strip (s : String) : String := ⟨pyStrip s.data⟩

/-- One pass of `re.sub(r"\s+", " ", text)`: every maximal run of
whitespace becomes a single space.  `prevSpace` records whether the
previous character belonged to a whitespace run, so exactly the first
character of each run emits the single replacement space. -/
def collapseWsAux (prevSpace : Bool) : List Char → List Char
  | [] => []
  | c :: rest =>
    if isPySpace c then
      if prevSpace then collapseWsAux true rest
      else ' ' :: collapseWsAux true rest
    else c :: collapseWsAux false rest

def collapseWs (l : List Char) : List Char := collapseWsAux false l

/-- `re.sub(r"\s+", " ", text).strip()` — the normalization performed by
`chunk_text`. -/
def normalize_ws (s : String) : String := ⟨pyStrip (collapseWs s.data)⟩

/-- Python index clamping for slices: a negative index counts from the
end, and the result is clamped into `[0, n]`. -/
def pyClampIdx (n : ℕ) (i : ℤ) : ℕ :=
  if i < 0 then (i + n).toNat else min i.toNat n

/-- Python slice `l[lo:hi]` with full negative-index semantics. -/
def pySlice (l : List Char) (lo hi : ℤ) : List Char :=
  (l.take (pyClampIdx l.length hi)).drop (pyClampIdx l.length lo)

/-- Python indexing `l[i]`: negative `i` counts from the end; out of
range is an `IndexError`, modelled as `none`. -/
def pyIndex (l : List Char) (i : ℤ) : Option Char :=
  if 0 ≤ i then l.get? i.toNat
  else if 0 ≤ i + l.length then l.get? (i + l.length).toNat
  else none

/-- Python substring search `hay.find(needle)`: index of the first
occurrence, `none` standing for Python's `-1`. -/
def pyFindAux (needle : List Char) : List Char → ℕ → Option ℕ
  | [], i => if needle.isPrefixOf [] then some i else none
  | c :: rest, i =>
    if needle.isPrefixOf (c :: rest) then some i else pyFindAux needle rest (i + 1)

def py_find (hay needle : List Char) : Option ℕ := pyFindAux needle hay 0

/-! ### IEEE-754 binary64 arithmetic for `int(chunk_size * 0.7)`

`chunk_text` computes its backward-search lower bound with
`int(chunk_size * 0.7)`.  CPython evaluates this in binary64: the literal
`0.7` denotes the double `6305039478318694 / 2^53`, the int is converted
to a double, the product is rounded to 53 significant bits
(round-to-nearest, ties-to-even), and `int` truncates. -/

/-- Round `num / den` to the nearest integer, ties to even. -/
def rne (num den : ℕ) : ℕ :=
  let q := num / den
  let r := num % den
  if 2 * r < den then q
  else if den < 2 * r then q + 1
  else if q % 2 = 0 then q else q + 1

/-- Number of binary digits of `n` (0 for 0), via a structurally
recursive halving loop; `fuel ≥ n` halvings always suffice. -/
def bitLenAux : ℕ → ℕ → ℕ
  | 0, _ => 0
  | fuel + 1, n => if n = 0 then 0 else bitLenAux fuel (n / 2) + 1

def bitLen (n : ℕ) : ℕ := bitLenAux n n

/-- Round a nonnegative integer to 53 significant bits
(round-to-nearest, ties-to-even), returning the exact integer value of
the resulting double. -/
def flNat (N : ℕ) : ℕ :=
  let b := bitLen N
  if b ≤ 53 then N else rne N (2 ^ (b - 53)) * 2 ^ (b - 53)

/-- `int(n * 0.7)` as CPython computes it. -/
def py_int_mul07 (n : ℕ) : ℕ :=
  flNat (flNat n * 6305039478318694) / 2 ^ 53

/-! ### Chunker (`chunk_text`) -/

/-- Sentence-terminal characters: membership test `c in '.!?'`. -/
def sentinelChar (c : Char) : Bool := c = '.' ∨ c = '!' ∨ c = '?'

/-- The backward sentence-boundary search
`for pos in range(end, lb, -1): if T[pos] in '.!?': end = pos+1; break`.
Scans `fuel` positions downward from `pos`.  Returns `none` on an
`IndexError`, `some none` when no sentinel is found, `some (some p)` for
the first (largest) sentinel position. -/
def findBoundary (T : List Char) : ℕ → ℤ → Option (Option ℤ)
  | 0, _ => some none
  | fuel + 1, pos =>
    match pyIndex T pos with
    | none => none
    | some c =>
      if sentinelChar c then some (some pos)
      else findBoundary T fuel (pos - 1)

/-- Lines 96–103 of src/model.py: `end = min(start + chunk_size, len(T))`
followed, when `end < len(T)`, by the backward sentence-boundary search
that may replace `end` with `pos + 1`.  `none` is an `IndexError` raised
inside the search. -/
def computeEnd (T : List Char) (size : ℕ) (start : ℤ) : Option ℤ :=
  let n : ℤ := T.length
  let e0 : ℤ := min (start + size) n
  if e0 < n then
    let lb : ℤ := max (start + (py_int_mul07 size : ℤ)) (e0 - 50)
    match findBoundary T (e0 - lb).toNat e0 with
    | none => none
    | some none => some e0
    | some (some p) => some (p + 1)
  else some e0

/-- The `while start < len(T)` loop of `chunk_text`, with explicit fuel.
`none` means the run did not terminate normally within `fuel` iterations
(divergence, or an `IndexError` inside the boundary search). -/
def chunkLoop (T : List Char) (size overlap : ℕ) : ℕ → ℤ → Option (List (List Char))
  | 0, _ => none
  | fuel + 1, start =>
    if start < (T.length : ℤ) then
      match computeEnd T size start with
      | none => none
      | some endd =>
        let chunk := pyStrip (pySlice T start endd)
        match chunkLoop T size overlap fuel
            (if endd < (T.length : ℤ) then endd - overlap else endd) with
        | none => none
        | some rest => some (if chunk = [] then rest else chunk :: rest)
    else some []

/-- `chunk_text(text, chunk_size, overlap)` from src/model.py, with fuel
for the while loop.  `some chunks` is a normal return. -/
def chunk_text (fuel : ℕ) (text : String) (size overlap : ℕ) : Option (List String) :=
  if py_strip text = "" then some []
  else
    (chunkLoop (normalize_ws text).data size overlap fuel 0).map
      (fun cs => cs.map (fun l => (⟨l⟩ : String)))

/-! ### Hybrid search (`is_definition_chunk`, `build_index`, `search`)

The embedding model (`model.encode`) and the BM25 library are external
collaborators: `search` receives the per-chunk semantic dot products
(`sem`) and the raw BM25 scores for the query (`bm`) as inputs, exactly
the two arrays the Python code obtains from them.  Scores are `ℚ`. -/

/-- Python `needle in hay` on strings: substring containment. -/
def pyContains (hay needle : List Char) : Bool := (py_find hay needle).isSome

/-- Python `str.lower()` (ASCII lowering via `Char.toLower`; the claims
involve ASCII text only). -/
def pyLower (s : String) : String := ⟨s.data.map Char.toLower⟩

/-- `is_definition_chunk(text, query)` from src/model.py. -/
def is_definition_chunk (text query : String) : Bool :=
  let text_lower := pyLower text
  let query_lower := pyLower query
  let patterns : List String :=
    [ query_lower ++ " is"
    , "definition of " ++ query_lower
    , "what is " ++ query_lower
    , query_lower ++ " refers to"
    , query_lower ++ " means"
    , query_lower ++ ":" ]
  patterns.any (fun p => pyContains text_lower.data p.data)

/-- `build_index(chunks)`: raises `ValueError("No chunks to index")` on an
empty chunk list.  The embedding/BM25 construction performed on the
non-empty path calls external libraries; the component of the returned
index that `search` consults positionally is the chunk list itself, so
the index is modelled by it. -/
def build_index (chunks : List String) : Except String (List String) :=
  if chunks.isEmpty then Except.error "No chunks to index" else Except.ok chunks

/-- `numpy` `.max()` over a score array: an empty array raises
(`zero-size array to reduction operation`), modelled as `none`. -/
def listMax : List ℚ → Option ℚ
  | [] => none
  | x :: xs => some (xs.foldl max x)

/-- `CONFIG["SEMANTIC_WEIGHT"] * semantic + CONFIG["BM25_WEIGHT"] * bm25`
per chunk (weights 0.7 / 0.3). -/
def fuseScores (sem bmN : List ℚ) : List ℚ :=
  (sem.zip bmN).map (fun p => (7 / 10 : ℚ) * p.1 + (3 / 10 : ℚ) * p.2)

/-- `np.argsort(combined)[::-1]`: indices of the scores in descending
score order.  (`np.argsort`'s tie order is unspecified; a stable
descending sort is used here.  Every property verified below is
insensitive to the order of tied candidates.) -/
def argsortDesc (scores : List ℚ) : List ℕ :=
  (List.range scores.length).mergeSort
    (fun i j => decide (scores.getD j 0 ≤ scores.getD i 0))

/-- The per-candidate definition boost of `search`:
`score = min(score * 1.3, 1.0)` when `is_definition_chunk(chunk, query)`,
else unchanged. -/
def boostScore (query chunk : String) (s : ℚ) : ℚ :=
  if is_definition_chunk chunk query then min (s * (13 / 10)) 1 else s

/-- `search(query, index, k)` from src/model.py.  `chunks` is the indexed
chunk list; `sem` and `bm` are the semantic dot products and raw BM25
scores for this query (positionally aligned with `chunks`). -/
def search (query : String) (chunks : List String) (sem bm : List ℚ) (k : ℕ) :
    Except String (List (String × ℚ)) :=
  if py_strip query = "" then Except.error "Query empty"
  else
    match listMax bm with
    | none => Except.error "zero-size array to reduction operation maximum"
    | some m =>
      let bmN := if 0 < m then bm.map (· / m) else bm
      let combined := fuseScores sem bmN
      let pool := (argsortDesc combined).take (k * 3)
      let results := pool.filterMap (fun i =>
        let chunk := chunks.getD i ""
        let score := boostScore query chunk (combined.getD i 0)
        if (1 / 10 : ℚ) < score then some (chunk, score) else none)
      Except.ok ((results.mergeSort (fun a b => decide (b.2 ≤ a.2))).take k)

/-! ### Page locator (`estimate_page`) -/

/-- Match of the regex `\[PAGE (\d+)\]` anchored at the head of the list:
returns the page number.  (`\d+` is greedy; after the maximal digit run
the next character must be `]` — with fewer digits the following
character is a digit, never `]`, so greedy matching is exhaustive.) -/
def matchMarker : List Char → Option ℕ
  | '[' :: 'P' :: 'A' :: 'G' :: 'E' :: ' ' :: rest =>
    let ds := rest.takeWhile Char.isDigit
    if ds ≠ [] ∧ (rest.drop ds.length).head? = some ']' then
      some (ds.foldl (fun a c => 10 * a + (c.toNat - '0'.toNat)) 0)
    else none
  | _ => none

/-- `re.finditer(r'\[PAGE (\d+)\]', full_text)` as `(offset, page)` pairs.
A match of this pattern contains no `[` after its first character, so no
match can start strictly inside another; scanning every position is
therefore equivalent to `finditer`'s non-overlapping left-to-right scan. -/
def findMarkers : List Char → ℕ → List (ℕ × ℕ)
  | [], _ => []
  | l :: rest, i =>
    match matchMarker (l :: rest) with
    | some page => (i, page) :: findMarkers rest (i + 1)
    | none => findMarkers rest (i + 1)

/-- The interval scan
`for i in range(len(pages)-1): if pages[i][0] <= pos < pages[i+1][0]: return pages[i][1]`,
`none` when the loop falls through. -/
def pageLoop : List (ℕ × ℕ) → ℕ → Option ℕ
  | p1 :: p2 :: rest, pos =>
    if p1.1 ≤ pos ∧ pos < p2.1 then some p1.2 else pageLoop (p2 :: rest) pos
  | _, _ => none

/-- `estimate_page(chunk_text, full_text)` from src/model.py.  The
function is total: its `try/except` has no failing operation to catch in
this model (in particular `int` cannot fail on a `\d+` group), so the
code never raises. -/
def estimate_page (chunk full : String) : ℕ :=
  let pages := findMarkers full.data 0
  if pages = [] then 1
  else
    match py_find full.data chunk.data with
    | none => 1
    | some pos =>
      match pageLoop pages pos with
      | some page => page
      | none => (pages.getLast?.map Prod.snd).getD 1

/-! ## Auxiliary lemmas -/

theorem dropWhile_length_le {α : Type} (p : α → Bool) (l : List α) :
    (l.dropWhile p).length ≤ l.length := by
  induction l with
  | nil => simp [List.dropWhile]
  | cons c rest ih =>
    simp only [List.dropWhile]
    split
    · exact Nat.le_succ_of_le ih
    · exact Nat.le_refl _

theorem pyStrip_length_le (l : List Char) : (pyStrip l).length ≤ l.length := by
  have h1 := dropWhile_length_le isPySpace l
  have h2 := dropWhile_length_le isPySpace (l.dropWhile isPySpace).reverse
  simp only [pyStrip, List.length_reverse] at *
  omega

theorem pySlice_length_le (l : List Char) (lo hi : ℤ) (h : lo ≤ hi) :
    (pySlice l lo hi).length ≤ (hi - lo).toNat := by
  simp only [pySlice, pyClampIdx, List.length_drop, List.length_take]
  split_ifs <;> omega

theorem findBoundary_found (T : List Char) :
    ∀ (f : ℕ) (pos p : ℤ), findBoundary T f pos = some (some p) →
      pos - f < p ∧ p ≤ pos := by
  intro f
  induction f with
  | zero => intro pos p h; simp [findBoundary] at h
  | succ f ih =>
    intro pos p h
    cases hidx : pyIndex T pos with
    | none => simp only [findBoundary, hidx] at h; exact absurd h (by simp)
    | some c =>
      simp only [findBoundary, hidx] at h
      by_cases hsent : sentinelChar c
      · rw [if_pos hsent] at h
        simp only [Option.some.injEq] at h
        subst h
        constructor
        · push_cast; omega
        · omega
      · rw [if_neg hsent] at h
        have := ih (pos - 1) p h
        constructor
        · have := this.1; push_cast at this ⊢; omega
        · omega

theorem findBoundary_no_sentinel (T : List Char)
    (hT : ∀ c ∈ T, sentinelChar c = false) :
    ∀ (f : ℕ) (pos : ℤ), pos < T.length → (f : ℤ) ≤ pos + 1 →
      findBoundary T f pos = some none := by
  intro f
  induction f with
  | zero => intro pos _ _; rfl
  | succ f ih =>
    intro pos hlt hle
    have hpos : 0 ≤ pos := by push_cast at hle; omega
    have hplen : pos.toNat < T.length := by omega
    have hget : pyIndex T pos = some (T.get ⟨pos.toNat, hplen⟩) := by
      simp only [pyIndex, if_pos hpos]
      exact List.get?_eq_get hplen
    have hsf : sentinelChar (T.get ⟨pos.toNat, hplen⟩) = false :=
      hT _ (T.get_mem _ _)
    simp only [findBoundary, hget, hsf, Bool.false_eq_true, if_false]
    exact ih (pos - 1) (by omega) (by push_cast at hle ⊢; omega)

theorem computeEnd_bounds {T : List Char} {size : ℕ} {start endd : ℤ}
    (hs : start < (T.length : ℤ)) (h : computeEnd T size start = some endd) :
    start ≤ endd ∧ endd ≤ start + size + 1 := by
  simp only [computeEnd] at h
  set n : ℤ := (T.length : ℤ) with hn
  set e0 : ℤ := min (start + size) n with he0
  have he0l : e0 ≤ start + size := min_le_left _ _
  have he0s : start ≤ e0 := le_min (by omega) (by omega)
  by_cases he : e0 < n
  · rw [if_pos he] at h
    set lb : ℤ := max (start + (py_int_mul07 size : ℤ)) (e0 - 50) with hlb
    have hlbs : start ≤ lb :=
      le_trans (by omega : start ≤ start + (py_int_mul07 size : ℤ)) (le_max_left _ _)
    cases hfb : findBoundary T (e0 - lb).toNat e0 with
    | none => rw [hfb] at h; simp at h
    | some o =>
      rw [hfb] at h
      cases o with
      | none =>
        simp only [Option.some.injEq] at h
        omega
      | some p =>
        simp only [Option.some.injEq] at h
        have hf := findBoundary_found T _ _ _ hfb
        omega
  · rw [if_neg he] at h
    simp only [Option.some.injEq] at h
    omega

theorem computeEnd_no_sentinel {T : List Char} {size : ℕ} {start : ℤ}
    (hT : ∀ c ∈ T, sentinelChar c = false) (h0 : 0 ≤ start) :
    computeEnd T size start = some (min (start + size) (T.length : ℤ)) := by
  simp only [computeEnd]
  set n : ℤ := (T.length : ℤ) with hn
  set e0 : ℤ := min (start + size) n with he0
  by_cases he : e0 < n
  · rw [if_pos he]
    set lb : ℤ := max (start + (py_int_mul07 size : ℤ)) (e0 - 50) with hlb
    have hlbs : start ≤ lb :=
      le_trans (by omega : start ≤ start + (py_int_mul07 size : ℤ)) (le_max_left _ _)
    have he0nn : 0 ≤ e0 := le_min (by omega) (by omega)
    rw [findBoundary_no_sentinel T hT _ e0 he (by omega)]
  · rw [if_neg he]

theorem chunkLoop_done {T : List Char} {size overlap f : ℕ} {start : ℤ}
    {cs : List (List Char)}
    (h : chunkLoop T size overlap f start = some cs)
    (hge : ¬ start < (T.length : ℤ)) : cs = [] := by
  cases f with
  | zero => simp [chunkLoop] at h
  | succ f =>
    simp only [chunkLoop, if_neg hge, Option.some.injEq] at h
    exact h.symm

theorem chunkLoop_length_le :
    ∀ (fuel : ℕ) (T : List Char) (size overlap : ℕ) (start : ℤ)
      (cs : List (List Char)),
      chunkLoop T size overlap fuel start = some cs →
      ∀ c ∈ cs, c.length ≤ size + 1 := by
  intro fuel
  induction fuel with
  | zero => intro T size overlap start cs h; simp [chunkLoop] at h
  | succ f ih =>
    intro T size overlap start cs h
    by_cases hs : start < (T.length : ℤ)
    · simp only [chunkLoop, if_pos hs] at h
      cases hce : computeEnd T size start with
      | none => rw [hce] at h; simp at h
      | some endd =>
        rw [hce] at h
        cases hcl : chunkLoop T size overlap f
            (if endd < (T.length : ℤ) then endd - overlap else endd) with
        | none => simp only [hcl] at h; exact absurd h (by simp)
        | some rest =>
          simp only [hcl, Option.some.injEq] at h
          have hrest := ih T size overlap _ rest hcl
          obtain ⟨h1, h2⟩ := computeEnd_bounds hs hce
          have hlen : (pyStrip (pySlice T start endd)).length ≤ size + 1 := by
            have ha := pySlice_length_le T start endd h1
            have hb := pyStrip_length_le (pySlice T start endd)
            omega
          intro c hc
          rw [← h] at hc
          by_cases hch : pyStrip (pySlice T start endd) = []
          · rw [if_pos hch] at hc
            exact hrest c hc
          · rw [if_neg hch] at hc
            rcases List.mem_cons.mp hc with rfl | hc
            · exact hlen
            · exact hrest c hc
    · rw [chunkLoop_done h hs]
      intro c hc
      simp at hc

/-- Claim C9: for every text, every `size > 0` and `0 ≤ overlap < size`,
every chunk returned by `chunk_text` has length at most `size + 1`; and
the length `size + 1` is reachable, because the backward boundary search
begins at index `end` itself (one past the tentative window), so a
sentence terminator sitting exactly at the tentative end extends the
chunk one character beyond `size` — witnessed by `"aaaaa.aaaa"` with
`size = 5`, whose first chunk `"aaaaa."` has length 6. -/
theorem chunk_length_bound :
    (∀ (fuel : ℕ) (text : String) (size overlap : ℕ) (cs : List String),
        0 < size → overlap < size →
        chunk_text fuel text size overlap = some cs →
        ∀ c ∈ cs, c.length ≤ size + 1)
    ∧ chunk_text 30 "aaaaa.aaaa" 5 0 = some ["aaaaa.", "aaaa"]
    ∧ ("aaaaa." : String).length = 5 + 1 := by
  refine ⟨?_, by decide, by decide⟩
  intro fuel text size overlap cs _ _ h
  simp only [chunk_text] at h
  by_cases ht : py_strip text = ""
  · rw [if_pos ht] at h
    simp only [Option.some.injEq] at h
    subst h
    intro c hc
    simp at hc
  · rw [if_neg ht] at h
    cases hcl : chunkLoop (normalize_ws text).data size overlap fuel 0 with
    | none => rw [hcl] at h; simp at h
    | some cs0 =>
      rw [hcl] at h
      simp only [Option.map_some', Option.some.injEq] at h
      subst h
      intro c hc
      obtain ⟨l, hl, rfl⟩ := List.mem_map.mp hc
      have := chunkLoop_length_le fuel _ size overlap 0 cs0 hcl l hl
      simpa [String.length] using this

/-- Witness for claim C9: the bound instantiated at the concrete run
`chunk_text 30 "aaaaa.aaaa" 5 0`. -/
theorem chunk_length_bound_witness : ("aaaaa." : String).length ≤ 5 + 1 :=
  chunk_length_bound.1 30 "aaaaa.aaaa" 5 0 ["aaaaa.", "aaaa"]
    (by decide) (by decide) (by decide) "aaaaa." (by simp)

theorem chunkLoop_c2_stuck :
    ∀ f, chunkLoop "aaaaaaaa.aaaaaaaaaaa".data 10 9 f 0 = none := by
  intro f
  induction f with
  | zero => rfl
  | succ f ih =>
    have h : chunkLoop "aaaaaaaa.aaaaaaaaaaa".data 10 9 (f + 1) 0 =
        (match chunkLoop "aaaaaaaa.aaaaaaaaaaa".data 10 9 f 0 with
         | none => none
         | some rest => some ("aaaaaaaa.".data :: rest)) := rfl
    rw [h, ih]

/-- Claim C2: the chunking loop does NOT always terminate.  On the text
`"aaaaaaaa.aaaaaaaaaaa"` with `size = 10`, `overlap = 9` (which satisfy
the preconditions `size > 0`, `0 ≤ overlap < size`), every iteration
finds the sentence boundary at position 8, sets `end = 9`, and resets
`start = end - overlap = 0`: the window end does not strictly increase
and the `while` loop never exits, so `chunk_text` returns `none` for
every amount of fuel. -/
theorem chunk_text_nonterminating :
    ∀ fuel, chunk_text fuel "aaaaaaaa.aaaaaaaaaaa" 10 9 = none := by
  intro fuel
  have h : chunk_text fuel "aaaaaaaa.aaaaaaaaaaa" 10 9 =
      (chunkLoop (normalize_ws "aaaaaaaa.aaaaaaaaaaa").data 10 9 fuel 0).map
        (fun cs => cs.map (fun l => (⟨l⟩ : String))) := rfl
  have hn : (normalize_ws "aaaaaaaa.aaaaaaaaaaa").data =
      "aaaaaaaa.aaaaaaaaaaa".data := by decide
  rw [h, hn, chunkLoop_c2_stuck]
  rfl

theorem chunkLoop_count :
    ∀ (fuel : ℕ) (T : List Char) (size overlap : ℕ) (start : ℤ)
      (cs : List (List Char)),
      0 < size → overlap < size →
      (∀ c ∈ T, sentinelChar c = false) →
      0 ≤ start → start ≤ (T.length : ℤ) →
      chunkLoop T size overlap fuel start = some cs →
      ((size : ℤ) - overlap) * cs.length ≤
        (T.length : ℤ) - start + ((size : ℤ) - overlap) := by
  intro fuel
  induction fuel with
  | zero => intro T size overlap start cs _ _ _ _ _ h; simp [chunkLoop] at h
  | succ f ih =>
    intro T size overlap start cs hsize hov hT h0 hsn h
    have hd : (1 : ℤ) ≤ (size : ℤ) - overlap := by
      have h1 : overlap + 1 ≤ size := hov
      omega
    by_cases hs : start < (T.length : ℤ)
    · simp only [chunkLoop, if_pos hs, computeEnd_no_sentinel hT h0] at h
      set n : ℤ := (T.length : ℤ) with hn
      set e0 : ℤ := min (start + size) n with he0
      by_cases he : e0 < n
      · have he0v : e0 = start + size := by omega
        rw [if_pos he] at h
        cases hcl : chunkLoop T size overlap f (e0 - overlap) with
        | none => simp only [hcl] at h; exact absurd h (by simp)
        | some rest =>
          simp only [hcl, Option.some.injEq] at h
          have hrest := ih T size overlap (e0 - overlap) rest hsize hov hT
            (by omega) (by omega) hcl
          have hrest2 : ((size : ℤ) - overlap) * rest.length ≤ n - start := by
            have heq : n - (e0 - overlap) + ((size : ℤ) - overlap) = n - start := by
              omega
            linarith [hrest]
          subst h
          split
          · linarith [hrest2]
          · simp only [List.length_cons]
            push_cast
            linarith [hrest2]
      · rw [if_neg he] at h
        have hev : e0 = n := by omega
        cases hcl : chunkLoop T size overlap f e0 with
        | none => simp only [hcl] at h; exact absurd h (by simp)
        | some rest =>
          simp only [hcl, Option.some.injEq] at h
          have hrnil : rest = [] := chunkLoop_done hcl (by omega)
          subst hrnil
          subst h
          split
          · simp only [List.length_nil, Nat.cast_zero, mul_zero]
            omega
          · simp only [List.length_cons, List.length_nil]
            push_cast
            linarith [hd]
    · rw [chunkLoop_done h hs]
      simp only [List.length_nil, Nat.cast_zero, mul_zero]
      omega

/-- Claim C5 (amended): for a text whose normalization contains no
sentence-terminal character (`.`, `!`, `?`), every iteration takes the
full hard cut `size - overlap` forward, and whenever the loop returns,
the chunk count is bounded by `len(normalized_text)/(size - overlap) + 1`.
(For texts with sentence boundaries the backward search can shorten
every step, and the bound fails — see the counterexample.) -/
theorem chunk_count_bound_no_sentinel :
    ∀ (fuel : ℕ) (text : String) (size overlap : ℕ) (cs : List String),
      0 < size → overlap < size →
      (∀ c ∈ (normalize_ws text).data, sentinelChar c = false) →
      chunk_text fuel text size overlap = some cs →
      (cs.length : ℚ) ≤
        ((normalize_ws text).length : ℚ) / ((size : ℚ) - overlap) + 1 := by
  intro fuel text size overlap cs hsize hov hT h
  have hd : (0 : ℚ) < (size : ℚ) - overlap := by
    have h1 : (overlap : ℚ) < size := by exact_mod_cast hov
    linarith
  simp only [chunk_text] at h
  by_cases ht : py_strip text = ""
  · rw [if_pos ht] at h
    simp only [Option.some.injEq] at h
    subst h
    simp only [List.length_nil, Nat.cast_zero]
    positivity
  · rw [if_neg ht] at h
    cases hcl : chunkLoop (normalize_ws text).data size overlap fuel 0 with
    | none => rw [hcl] at h; simp at h
    | some cs0 =>
      rw [hcl] at h
      simp only [Option.map_some', Option.some.injEq] at h
      subst h
      have key := chunkLoop_count fuel _ size overlap 0 cs0 hsize hov hT
        (le_refl 0) (by positivity) hcl
      have keyq : ((size : ℚ) - overlap) * (cs0.length : ℚ) ≤
          (((normalize_ws text).data.length : ℚ)) + ((size : ℚ) - overlap) := by
        exact_mod_cast (by omega :
          ((size : ℤ) - overlap) * (cs0.length : ℤ) ≤
            ((normalize_ws text).data.length : ℤ) + ((size : ℤ) - overlap))
      have hlen : ((cs0.map (fun l => (⟨l⟩ : String))).length : ℚ) = (cs0.length : ℚ) := by
        simp
      rw [hlen]
      have hq : (cs0.length : ℚ) ≤
          (((normalize_ws text).data.length : ℚ) + ((size : ℚ) - overlap)) /
            ((size : ℚ) - overlap) := by
        rw [le_div_iff₀ hd]
        calc (cs0.length : ℚ) * ((size : ℚ) - overlap)
            = ((size : ℚ) - overlap) * (cs0.length : ℚ) := by ring
          _ ≤ _ := keyq
      rw [add_div, div_self (ne_of_gt hd)] at hq
      have hlen2 : ((normalize_ws text).length : ℚ) =
          ((normalize_ws text).data.length : ℚ) := rfl
      rw [hlen2]
      exact hq

/-- Witness for the amended claim C5: twelve characters, `size = 5`,
`overlap = 2` produce 4 chunks, and `4 ≤ 12/3 + 1`. -/
theorem chunk_count_bound_witness :
    ((["aaaaa", "aaaaa", "aaaaa", "aaa"] : List String).length : ℚ) ≤
      ((normalize_ws "aaaaaaaaaaaa").length : ℚ) / ((5 : ℚ) - (2 : ℕ)) + 1 :=
  chunk_count_bound_no_sentinel 30 "aaaaaaaaaaaa" 5 2
    ["aaaaa", "aaaaa", "aaaaa", "aaa"]
    (by decide) (by decide) (by decide) (by decide)

/-- Counterexample to claim C5 as stated: the text `("aaa.a" * 24)`
(120 characters, a sentence terminator every 5) with `size = 10`,
`overlap = 4` yields 23 chunks — each backward boundary search shortens
the window so `start` advances only 5 per iteration — while the claimed
bound is `120/(10-4) + 1 = 21`. -/
theorem chunk_count_bound_cex :
    chunk_text 200
        "aaa.aaaa.aaaa.aaaa.aaaa.aaaa.aaaa.aaaa.aaaa.aaaa.aaaa.aaaa.aaaa.aaaa.aaaa.aaaa.aaaa.aaaa.aaaa.aaaa.aaaa.aaaa.aaaa.aaaa.a"
        10 4 = some (List.replicate 22 "aaa.aaaa." ++ ["aaa.aaaa.a"]) ∧
      ¬ (((List.replicate 22 ("aaa.aaaa." : String) ++ ["aaa.aaaa.a"]).length : ℚ) ≤
        ((normalize_ws
          "aaa.aaaa.aaaa.aaaa.aaaa.aaaa.aaaa.aaaa.aaaa.aaaa.aaaa.aaaa.aaaa.aaaa.aaaa.aaaa.aaaa.aaaa.aaaa.aaaa.aaaa.aaaa.aaaa.aaaa.a").length : ℚ) /
          ((10 : ℚ) - (4 : ℕ)) + 1) := by
  refine ⟨by decide, ?_⟩
  have hn : ((normalize_ws
      "aaa.aaaa.aaaa.aaaa.aaaa.aaaa.aaaa.aaaa.aaaa.aaaa.aaaa.aaaa.aaaa.aaaa.aaaa.aaaa.aaaa.aaaa.aaaa.aaaa.aaaa.aaaa.aaaa.aaaa.a").length) = 120 := by
    decide
  rw [hn]
  have hl : (List.replicate 22 ("aaa.aaaa." : String) ++ ["aaa.aaaa.a"]).length = 23 := by
    rfl
  rw [hl]
  norm_num

/-! ## Lemmas about the hybrid search -/

theorem foldl_max_init_le (l : List ℚ) : ∀ a : ℚ, a ≤ l.foldl max a := by
  induction l with
  | nil => intro a; exact le_refl a
  | cons x xs ih =>
    intro a
    exact le_trans (le_max_left a x) (ih (max a x))

theorem foldl_max_mem_le (l : List ℚ) : ∀ (a x : ℚ), x ∈ l → x ≤ l.foldl max a := by
  induction l with
  | nil => intro a x hx; simp at hx
  | cons y ys ih =>
    intro a x hx
    rcases List.mem_cons.mp hx with rfl | hx2
    · exact le_trans (le_max_right a x) (foldl_max_init_le ys (max a x))
    · exact ih (max a y) x hx2

theorem listMax_le {l : List ℚ} {m : ℚ} (h : listMax l = some m) :
    ∀ x ∈ l, x ≤ m := by
  cases l with
  | nil => simp [listMax] at h
  | cons a xs =>
    simp only [listMax, Option.some.injEq] at h
    subst h
    intro x hx
    rcases List.mem_cons.mp hx with rfl | hx2
    · exact foldl_max_init_le xs x
    · exact foldl_max_mem_le xs a x hx2

theorem getD_mem_or_eq {α : Type} (l : List α) (i : ℕ) (d : α) :
    l.getD i d ∈ l ∨ l.getD i d = d := by
  cases hg : l.get? i with
  | none => right; simp [List.getD_eq_getElem?_getD, ← List.get?_eq_getElem?, hg]
  | some a =>
    left
    have ha : a ∈ l := List.get?_mem hg
    simpa [List.getD_eq_getElem?_getD, ← List.get?_eq_getElem?, hg] using ha

theorem combined_le_one {sem bm : List ℚ} {m : ℚ} (hbm : listMax bm = some m)
    (hsem : ∀ s ∈ sem, s ≤ 1) :
    ∀ c ∈ fuseScores sem (if 0 < m then bm.map (· / m) else bm), c ≤ 1 := by
  intro c hc
  obtain ⟨⟨s, b⟩, hmem, rfl⟩ := List.mem_map.mp hc
  obtain ⟨hsmem, hbmem⟩ := List.of_mem_zip hmem
  have hs := hsem s hsmem
  by_cases hm : 0 < m
  · rw [if_pos hm] at hbmem
    obtain ⟨x, hx, rfl⟩ := List.mem_map.mp hbmem
    have hxle : x ≤ m := listMax_le hbm x hx
    have hb1 : x / m ≤ 1 := (div_le_one hm).mpr hxle
    simp only
    linarith
  · rw [if_neg hm] at hbmem
    have hble : b ≤ m := listMax_le hbm b hbmem
    have hm0 : m ≤ 0 := le_of_not_lt hm
    simp only
    linarith

theorem boostScore_le_one {q chunk : String} {s : ℚ} (hs : s ≤ 1) :
    boostScore q chunk s ≤ 1 := by
  unfold boostScore
  split
  · exact min_le_right _ _
  · exact hs

theorem search_ok_elim {q : String} {chunks : List String} {sem bm : List ℚ}
    {k : ℕ} {out : List (String × ℚ)} {p : String × ℚ}
    (h : search q chunks sem bm k = Except.ok out) (hp : p ∈ out) :
    ∃ m, listMax bm = some m ∧
      ∃ i, p.1 = chunks.getD i "" ∧
        p.2 = boostScore q (chunks.getD i "")
          ((fuseScores sem (if 0 < m then bm.map (· / m) else bm)).getD i 0) ∧
        (1 : ℚ) / 10 < p.2 := by
  simp only [search] at h
  by_cases hq : py_strip q = ""
  · rw [if_pos hq] at h; exact absurd h (by simp)
  · rw [if_neg hq] at h
    cases hbm : listMax bm with
    | none => rw [hbm] at h; exact absurd h (by simp)
    | some m =>
      rw [hbm] at h
      refine ⟨m, rfl, ?_⟩
      simp only [Except.ok.injEq] at h
      subst h
      have hp1 := List.mem_of_mem_take hp
      rw [List.mem_mergeSort] at hp1
      obtain ⟨i, _, hf⟩ := List.mem_filterMap.mp hp1
      by_cases hth : (1 : ℚ) / 10 < boostScore q (chunks.getD i "")
          ((fuseScores sem (if 0 < m then bm.map (· / m) else bm)).getD i 0)
      · rw [if_pos hth] at hf
        simp only [Option.some.injEq] at hf
        subst hf
        exact ⟨i, rfl, rfl, hth⟩
      · rw [if_neg hth] at hf
        exact absurd hf (by simp)

/-- Claim C1: for an index built from a non-empty chunk list, a
non-empty query and `k ≥ 1`, provided the per-chunk semantic dot products
lie in `[-1, 1]`, every fused score returned by `search` lies in `[0, 1]`
(weights 0.7 and 0.3; the normalized BM25 component is at most 1 when the
raw maximum is positive, and non-positive otherwise, and the threshold
filter `score > 0.1` supplies the lower bound). -/
theorem search_scores_unit_range :
    ∀ (q : String) (chunks : List String) (sem bm : List ℚ) (k : ℕ)
      (out : List (String × ℚ)),
      chunks ≠ [] → py_strip q ≠ "" → 1 ≤ k →
      sem.length = chunks.length → bm.length = chunks.length →
      (∀ s ∈ sem, -1 ≤ s ∧ s ≤ 1) →
      search q chunks sem bm k = Except.ok out →
      ∀ p ∈ out, 0 ≤ p.2 ∧ p.2 ≤ 1 := by
  intro q chunks sem bm k out _ _ _ _ _ hsem h p hp
  obtain ⟨m, hbm, i, _, hp2, hth⟩ := search_ok_elim h hp
  constructor
  · linarith
  · rw [hp2]
    rcases getD_mem_or_eq
        (fuseScores sem (if 0 < m then bm.map (· / m) else bm)) i 0 with
      hmem | heq
    · exact boostScore_le_one
        (combined_le_one hbm (fun s hs => (hsem s hs).2) _ hmem)
    · rw [heq]
      exact boostScore_le_one (by norm_num)

/-- Concrete evaluation of `search` on a one-chunk index: semantic score
1, raw BM25 score 0 (so the maximum is not positive and normalization is
skipped), no definition pattern; the fused score is `0.7`. -/
theorem search_eval_concrete :
    search "hi" ["a"] [1] [0] 1 = Except.ok [("a", (7 : ℚ) / 10)] := by
  have hq : ¬ (py_strip "hi" = "") := by decide
  have hdef : is_definition_chunk "a" "hi" = false := by decide
  have hm : ¬ ((0 : ℚ) < 0) := by norm_num
  simp only [search, if_neg hq, listMax, List.foldl_nil, if_neg hm]
  simp only [fuseScores, List.zip_cons_cons, List.zip_nil_right, List.map_cons,
    List.map_nil, argsortDesc, List.length_cons, List.length_nil,
    List.range_succ, List.range_zero, List.nil_append,
    List.mergeSort_singleton, List.take_cons, List.take_nil,
    List.filterMap_cons, List.filterMap_nil, List.getD_cons_zero, hdef,
    Bool.false_eq_true, if_false]
  norm_num [List.filterMap_cons, List.getElem?_cons_zero, boostScore, hdef,
    List.mergeSort_singleton, List.take_cons]

/-- Witness for claim C1: the concrete one-chunk search above returns the
single result `("a", 0.7)`, whose score lies in `[0, 1]`. -/
theorem search_scores_unit_range_witness :
    0 ≤ (("a" : String), (7 : ℚ) / 10).2 ∧ (("a" : String), (7 : ℚ) / 10).2 ≤ 1 :=
  search_scores_unit_range "hi" ["a"] [1] [0] 1 [("a", (7 : ℚ) / 10)]
    (by decide) (by decide) (by decide) (by decide) (by decide)
    (by norm_num [List.forall_mem_cons]) search_eval_concrete
    ("a", (7 : ℚ) / 10) (List.mem_cons_self _ _)

/-- Claim C7: for a non-empty query and `k ≥ 1`, no result returned by
`search` has a final (post-boost) score less than or equal to `0.1` —
the filter `if score > 0.1` runs after the definition boost. -/
theorem search_threshold_enforced :
    ∀ (q : String) (chunks : List String) (sem bm : List ℚ) (k : ℕ)
      (out : List (String × ℚ)),
      py_strip q ≠ "" → 1 ≤ k →
      search q chunks sem bm k = Except.ok out →
      ∀ p ∈ out, ¬ (p.2 ≤ 1 / 10) := by
  intro q chunks sem bm k out _ _ h p hp
  obtain ⟨m, hbm, i, _, _, hth⟩ := search_ok_elim h hp
  exact not_le.mpr hth

/-- Witness for claim C7 on the concrete one-chunk search. -/
theorem search_threshold_enforced_witness :
    ¬ ((("a" : String), (7 : ℚ) / 10).2 ≤ 1 / 10) :=
  search_threshold_enforced "hi" ["a"] [1] [0] 1 [("a", (7 : ℚ) / 10)]
    (by decide) (by decide) search_eval_concrete
    ("a", (7 : ℚ) / 10) (List.mem_cons_self _ _)

/-- Claim C8: on an index holding at least one chunk (as `build_index`
guarantees), `search` raises an error if and only if the query is empty
or whitespace-only after trimming; a query that is non-empty after
trimming never triggers an error. -/
theorem search_error_iff_blank_query :
    ∀ (q : String) (chunks : List String) (sem bm : List ℚ) (k : ℕ),
      bm ≠ [] →
      ((∃ e, search q chunks sem bm k = Except.error e) ↔ py_strip q = "") := by
  intro q chunks sem bm k hbm
  constructor
  · rintro ⟨e, he⟩
    by_contra hq
    simp only [search, if_neg hq] at he
    cases bm with
    | nil => exact hbm rfl
    | cons x xs =>
      simp only [listMax] at he
      exact absurd he (by simp)
  · intro hq
    exact ⟨"Query empty", by simp [search, hq]⟩

/-- Witness for claim C8: a non-blank query on a one-chunk index raises
no error. -/
theorem search_error_iff_blank_query_witness :
    ¬ ∃ e, search "hello" ["a"] [(1 : ℚ) / 2] [1] 1 = Except.error e := by
  intro hex
  have h := (search_error_iff_blank_query "hello" ["a"] [(1 : ℚ) / 2] [1] 1
    (by decide)).mp hex
  exact absurd h (by decide)

/-- Counterexample to claim C3 as stated: invoked with an index holding
zero chunks (and hence zero-length score arrays), `search` raises — the
maximum of the empty BM25 score array is taken before any result is
produced — instead of returning an empty result sequence. -/
theorem search_empty_index_cex :
    search "hello" [] [] [] 1 =
      Except.error "zero-size array to reduction operation maximum" := rfl

/-- Claim C3 (amended): an index holding zero chunks cannot be built —
`build_index` raises `ValueError("No chunks to index")` on an empty chunk
list — and if `search` is nevertheless invoked with zero chunks, it
raises (reducing the empty score array) rather than returning an empty
result sequence, for every non-blank query and every `k`. -/
theorem search_empty_index_amended :
    build_index [] = Except.error "No chunks to index" ∧
    ∀ (q : String) (k : ℕ), py_strip q ≠ "" →
      search q [] [] [] k =
        Except.error "zero-size array to reduction operation maximum" := by
  refine ⟨rfl, ?_⟩
  intro q k hq
  simp [search, hq, listMax]

/-- Witness for the amended claim C3 at the query `"hello"`, `k = 1`. -/
theorem search_empty_index_amended_witness :
    search "hello" [] [] [] 1 =
      Except.error "zero-size array to reduction operation maximum" :=
  search_empty_index_amended.2 "hello" 1 (by decide)

/-- Claim C4: inside `search`, each candidate's fused score passes
through `boostScore`: when the candidate's lowercased text contains one
of the six definition patterns (the lowercased query substituted
verbatim) the score is multiplied by 1.3 and capped at exactly 1.0 —
never exceeding it — and otherwise it is left unchanged. -/
theorem definition_boost :
    ∀ (query text : String) (s : ℚ),
      (is_definition_chunk text query = true ↔
        (pyContains (pyLower text).data (pyLower query ++ " is").data = true ∨
         pyContains (pyLower text).data ("definition of " ++ pyLower query).data = true ∨
         pyContains (pyLower text).data ("what is " ++ pyLower query).data = true ∨
         pyContains (pyLower text).data (pyLower query ++ " refers to").data = true ∨
         pyContains (pyLower text).data (pyLower query ++ " means").data = true ∨
         pyContains (pyLower text).data (pyLower query ++ ":").data = true)) ∧
      (is_definition_chunk text query = true →
        boostScore query text s = min (s * (13 / 10)) 1 ∧
        boostScore query text s ≤ 1 ∧
        (1 < s * (13 / 10) → boostScore query text s = 1) ∧
        (s * (13 / 10) ≤ 1 → boostScore query text s = s * (13 / 10))) ∧
      (is_definition_chunk text query = false → boostScore query text s = s) := by
  intro query text s
  refine ⟨?_, ?_, ?_⟩
  · simp [is_definition_chunk, List.any]
  · intro hdef
    refine ⟨by simp [boostScore, hdef], ?_, ?_, ?_⟩
    · simp only [boostScore, hdef, if_true]
      exact min_le_right _ _
    · intro h1
      simp only [boostScore, hdef, if_true]
      exact min_eq_right (le_of_lt h1)
    · intro h1
      simp only [boostScore, hdef, if_true]
      exact min_eq_left h1
  · intro hdef
    simp [boostScore, hdef]

/-- Witness for claim C4: the chunk `"x is y"` matches the pattern
`"x is"` for query `"x"`, and the boosted score
`min(0.9 * 1.3, 1) = 1` is exactly the cap. -/
theorem definition_boost_witness :
    boostScore "x" "x is y" ((9 : ℚ) / 10) = 1 := by
  have h := definition_boost "x" "x is y" ((9 : ℚ) / 10)
  exact (h.2.1 (by decide)).2.2.1 (by norm_num)

/-! ## Lemmas about the page locator -/

theorem getLast?_mem_list {α : Type} {l : List α} {x : α}
    (h : l.getLast? = some x) : x ∈ l := by
  obtain ⟨hne, rfl⟩ := List.mem_getLast?_eq_getLast (Option.mem_def.mpr h)
  exact List.getLast_mem hne

theorem pageLoop_mem :
    ∀ (ps : List (ℕ × ℕ)) (pos page : ℕ),
      pageLoop ps pos = some page → ∃ m ∈ ps, m.2 = page := by
  intro ps
  induction ps with
  | nil => intro pos page h; simp [pageLoop] at h
  | cons p1 rest ih =>
    intro pos page h
    cases rest with
    | nil => simp [pageLoop] at h
    | cons p2 rest2 =>
      simp only [pageLoop] at h
      by_cases hc : p1.1 ≤ pos ∧ pos < p2.1
      · rw [if_pos hc] at h
        simp only [Option.some.injEq] at h
        exact ⟨p1, List.mem_cons_self _ _, h⟩
      · rw [if_neg hc] at h
        obtain ⟨m, hm, he⟩ := ih pos page h
        exact ⟨m, List.mem_cons_of_mem _ hm, he⟩

theorem pageLoop_none_of_lt :
    ∀ (ps : List (ℕ × ℕ)) (pos : ℕ),
      (∀ m ∈ ps, pos < m.1) → pageLoop ps pos = none := by
  intro ps
  induction ps with
  | nil => intro pos _; rfl
  | cons p1 rest ih =>
    intro pos hall
    cases rest with
    | nil => rfl
    | cons p2 rest2 =>
      simp only [pageLoop]
      rw [if_neg]
      · exact ih pos (fun m hm => hall m (List.mem_cons_of_mem _ hm))
      · rintro ⟨h1, _⟩
        exact absurd h1 (not_le.mpr (hall p1 (List.mem_cons_self _ _)))

theorem findMarkers_offset_ge :
    ∀ (l : List Char) (i : ℕ) (m : ℕ × ℕ), m ∈ findMarkers l i → i ≤ m.1 := by
  intro l
  induction l with
  | nil => intro i m hm; simp [findMarkers] at hm
  | cons c rest ih =>
    intro i m hm
    simp only [findMarkers] at hm
    cases hmm : matchMarker (c :: rest) with
    | some page =>
      rw [hmm] at hm
      rcases List.mem_cons.mp hm with rfl | hm2
      · exact le_refl i
      · exact le_trans (Nat.le_succ i) (ih (i + 1) m hm2)
    | none =>
      rw [hmm] at hm
      exact le_trans (Nat.le_succ i) (ih (i + 1) m hm)

theorem findMarkers_sorted :
    ∀ (l : List Char) (i : ℕ),
      (findMarkers l i).Pairwise (fun a b => a.1 < b.1) := by
  intro l
  induction l with
  | nil => intro i; simp [findMarkers]
  | cons c rest ih =>
    intro i
    simp only [findMarkers]
    cases hmm : matchMarker (c :: rest) with
    | some page =>
      refine List.pairwise_cons.mpr ⟨?_, ih (i + 1)⟩
      intro b hb
      exact lt_of_lt_of_le (Nat.lt_succ_self i) (findMarkers_offset_ge rest (i + 1) b hb)
    | none => exact ih (i + 1)

/-- Counterexample to claim C6 as stated: page-marker numbers are read
verbatim from the text, so `"[PAGE 0]x"` makes `estimate_page` return 0,
which is not `≥ 1`.  (The `≥ 1` guarantee needs the extraction-layer
invariant that markers carry 1-based page numbers.) -/
theorem estimate_page_cex :
    estimate_page "x" "[PAGE 0]x" = 0 ∧ ¬ (1 ≤ estimate_page "x" "[PAGE 0]x") := by
  refine ⟨by decide, by decide⟩

/-- Claim C6 (amended): `estimate_page` is a total function — the
modelled code has no failing operation for its `try/except` to catch —
and it returns 1 when the text holds no `[PAGE n]` markers, returns 1
when the chunk does not occur as a literal substring of the text, and
returns a page `≥ 1` provided every marker's page number is `≥ 1` (the
extraction layer writes 1-based markers; a file containing a literal
`[PAGE 0]` breaks the unconditional claim). -/
theorem estimate_page_defaults :
    ∀ (chunk full : String),
      (findMarkers full.data 0 = [] → estimate_page chunk full = 1) ∧
      (py_find full.data chunk.data = none → estimate_page chunk full = 1) ∧
      ((∀ m ∈ findMarkers full.data 0, 1 ≤ m.2) → 1 ≤ estimate_page chunk full) := by
  intro chunk full
  refine ⟨?_, ?_, ?_⟩
  · intro h
    simp [estimate_page, h]
  · intro h
    simp only [estimate_page]
    by_cases hp : findMarkers full.data 0 = []
    · rw [if_pos hp]
    · rw [if_neg hp, h]
  · intro hall
    simp only [estimate_page]
    by_cases hp : findMarkers full.data 0 = []
    · rw [if_pos hp]
    · rw [if_neg hp]
      cases hf : py_find full.data chunk.data with
      | none => simp only [hf]; exact le_refl 1
      | some pos =>
        simp only [hf]
        cases hl : pageLoop (findMarkers full.data 0) pos with
        | some page =>
          simp only [hl]
          obtain ⟨m, hm, he⟩ := pageLoop_mem _ _ _ hl
          exact he ▸ hall m hm
        | none =>
          simp only [hl]
          cases hgl : (findMarkers full.data 0).getLast? with
          | none => simp [hgl]
          | some mlast =>
            have hmem : mlast ∈ findMarkers full.data 0 := getLast?_mem_list hgl
            simpa [hgl] using hall mlast hmem

/-- Witness for the amended claim C6: the spec scenario
`"[PAGE 1]\nAlpha text. [PAGE 2]\nBeta text."`, whose markers are 1-based,
yields a page `≥ 1`. -/
theorem estimate_page_defaults_witness :
    1 ≤ estimate_page "Beta text." "[PAGE 1]\nAlpha text. [PAGE 2]\nBeta text." :=
  (estimate_page_defaults "Beta text."
    "[PAGE 1]\nAlpha text. [PAGE 2]\nBeta text.").2.2 (by decide)

/-- Claim C10: when the text holds at least one marker and the chunk's
first occurrence lies strictly before the first marker's offset, no
interval check `pages[i][0] <= pos < pages[i+1][0]` succeeds (offsets
increase along the scan), the loop falls through, and `estimate_page`
returns the LAST marker's page number. -/
theorem estimate_page_before_first_marker :
    ∀ (chunk full : String) (o1 p1 : ℕ) (rest : List (ℕ × ℕ)) (pos : ℕ),
      findMarkers full.data 0 = (o1, p1) :: rest →
      py_find full.data chunk.data = some pos →
      pos < o1 →
      estimate_page chunk full =
        ((((o1, p1) :: rest).getLast?.map Prod.snd).getD 1) := by
  intro chunk full o1 p1 rest pos hm hf hpos
  have hsorted := findMarkers_sorted full.data 0
  rw [hm] at hsorted
  have hall : ∀ m ∈ (o1, p1) :: rest, pos < m.1 := by
    intro m hmem
    rcases List.mem_cons.mp hmem with rfl | hmem2
    · exact hpos
    · exact lt_trans hpos ((List.pairwise_cons.mp hsorted).1 m hmem2)
  have hnone := pageLoop_none_of_lt ((o1, p1) :: rest) pos hall
  simp [estimate_page, hm, hf, hnone]

/-- Witness for claim C10: in `"x[PAGE 1]a[PAGE 2]b"` the chunk `"x"`
occurs at offset 0, before the first marker at offset 1, and
`estimate_page` returns the last marker's page, 2. -/
theorem estimate_page_before_first_marker_witness :
    estimate_page "x" "x[PAGE 1]a[PAGE 2]b" = 2 := by
  have h := estimate_page_before_first_marker "x" "x[PAGE 1]a[PAGE 2]b"
    1 1 [(10, 2)] 0 (by decide) (by decide) (by decide)
  simpa using h

end SmartDoc
